import Mathlib

/-!
Shallow embedding of the `renamer` tool's reconciliation core
(`src/file.rs` and `src/action.rs`).

Strings are modelled as `List Char`.  File contents are modelled as the
list of line-read results handed to `read_file_names` (the Rust function
consumes a `Lines` iterator of `Result<String, io::Error>`); a failed
line read is an `Except.error`.  The imperative accumulation loop of
`read_file_names` is modelled by structural recursion producing the same
list of actions, and its lazily filtered iterator by eager list filtering.
Filesystem effects of `Action::apply` are modelled by explicit state
passing over an abstract filesystem interface `FsOps`.
-/

set_option autoImplicit false

deriving instance DecidableEq for Except

namespace Renamer

/-- Strings of the Rust source, modelled as lists of characters. -/
abbrev Str := List Char

/-- The Unicode White_Space property, the predicate behind Rust's
`char::is_whitespace`, which `str::trim` uses. -/
def rustIsWhitespace (c : Char) : Bool :=
  c.toNat = 0x09 || c.toNat = 0x0A || c.toNat = 0x0B || c.toNat = 0x0C ||
  c.toNat = 0x0D || c.toNat = 0x20 || c.toNat = 0x85 || c.toNat = 0xA0 ||
  c.toNat = 0x1680 || (0x2000 ≤ c.toNat && c.toNat ≤ 0x200A) ||
  c.toNat = 0x2028 || c.toNat = 0x2029 || c.toNat = 0x202F ||
  c.toNat = 0x205F || c.toNat = 0x3000

/-- Rust `str::trim_start`: drop leading whitespace. -/
def trimStart (s : Str) : Str := s.dropWhile rustIsWhitespace

/-- Rust `str::trim_end`: drop trailing whitespace. -/
def trimEnd (s : Str) : Str := (s.reverse.dropWhile rustIsWhitespace).reverse

/-- Rust `str::trim`: drop leading and trailing whitespace. -/
def trim (s : Str) : Str := trimEnd (trimStart s)

/-- Rust `line.starts_with("#")`: the first character is `#`. -/
def startsWithHash : Str → Bool
  | [] => false
  | c :: _ => c = '#'

/-- `FsItemType` from `src/file.rs`. -/
inductive FsItemType where
  | File
  | Directory
deriving DecidableEq

/-- `FsItem` from `src/file.rs`: a type-tagged path string. -/
structure FsItem where
  item_type : FsItemType
  name : Str
deriving DecidableEq

/-- `ActionType` from `src/action.rs`. -/
inductive ActionType where
  | Delete
  | Rename (path : Str)
deriving DecidableEq

/-- `Action` from `src/action.rs`: an action type together with the
`FsItem` it acts on (a borrow in Rust, a copy here). -/
structure Action where
  act : ActionType
  item : FsItem
deriving DecidableEq

/-- Stand-in for Rust's `std::io::Error`; its contents are irrelevant to
the reconciliation logic, only its presence as a line-read failure. -/
structure IOError where
  code : Nat
deriving DecidableEq

/-- `ReadFileError` from `src/file.rs`. -/
inductive ReadFileError where
  | Io (e : IOError)
  | Parse (msg : Str)
deriving DecidableEq

/-- The message of the `Parse` error raised when edited lines outnumber
entries. -/
def tooManyMsg : Str := "file contained too many file names".data

/-- The message of the `Parse` error raised when entries outnumber edited
lines. -/
def notEnoughMsg : Str := "file did not contain enough file names".data

/-- `write_file_names` from `src/file.rs`: serialize the entry names,
writing a newline before every name except the first. -/
def write_file_names : List FsItem → Str
  | [] => []
  | [x] => x.name
  | x :: xs => x.name ++ '\n' :: write_file_names xs

/-- `create_action` from `src/file.rs`: trim the line; a leading `#`
makes a `Delete`, a difference from the item's name makes a `Rename` of
the trimmed line, equality makes no action. -/
def create_action (f : Str) (item : FsItem) : Option Action :=
  let line := trim f
  let delete := startsWithHash line
  if delete then
    some ⟨ActionType.Delete, item⟩
  else if line ≠ item.name then
    some ⟨ActionType.Rename line, item⟩
  else
    none

/-- The line filtering of `read_file_names` in `src/file.rs`: keep only
successfully read lines (`filter_map` of `Result::ok`) that are not blank
after trimming. -/
def filterLines (lines : List (Except IOError Str)) : List Str :=
  (lines.filterMap Except.toOption).filter fun s => !(trim s).isEmpty

/-- The pairing loop of `read_file_names` in `src/file.rs`: walk filtered
lines and items in lock-step, collecting the actions `create_action`
produces; a surplus line fails with the too-many message, a surplus item
with the not-enough message. -/
def reconcile : List Str → List FsItem → Except ReadFileError (List Action)
  | line :: lines, item :: items =>
    match reconcile lines items with
    | Except.error e => Except.error e
    | Except.ok rest =>
      Except.ok (match create_action line item with
        | some a => a :: rest
        | none => rest)
  | _ :: _, [] => Except.error (ReadFileError.Parse tooManyMsg)
  | [], _ :: _ => Except.error (ReadFileError.Parse notEnoughMsg)
  | [], [] => Except.ok []

/-- `read_file_names` from `src/file.rs`, with the iterator of line-read
results made an explicit list. -/
def read_file_names (lines : List (Except IOError Str)) (files : List FsItem) :
    Except ReadFileError (List Action) :=
  reconcile (filterLines lines) files

/-- Remove one trailing carriage return, as `BufRead::lines` does on each
line that was terminated by a newline. -/
def stripCR (l : Str) : Str :=
  if l.getLast? = some '\r' then l.dropLast else l

/-- Accumulator version of the `BufRead::lines` splitting: `acc` holds
the characters of the current line in reverse. -/
def splitLinesAux : Str → Str → List Str
  | acc, [] => if acc = [] then [] else [acc.reverse]
  | acc, c :: cs =>
    if c = '\n' then stripCR acc.reverse :: splitLinesAux [] cs
    else splitLinesAux (c :: acc) cs

/-- Rust `BufRead::lines` over an in-memory buffer: split at every
newline, strip a carriage return preceding a newline, and yield a final
unterminated line only when it is nonempty. -/
def splitLines (s : Str) : List Str := splitLinesAux [] s

/-- `FilesFile::read` from `src/file.rs` restricted to its pure content:
reading the buffer text back against the entry list.  Every line of an
in-memory text reads successfully, hence the `Except.ok` wrapping. -/
def read_text (text : Str) (files : List FsItem) :
    Except ReadFileError (List Action) :=
  read_file_names ((splitLines text).map Except.ok) files

/-- Rust `char::to_ascii_lowercase`. -/
def toAsciiLowercase (c : Char) : Char :=
  if 'A' ≤ c && c ≤ 'Z' then Char.ofNat (c.toNat + 32) else c

/-- Rust `str::eq_ignore_ascii_case`: equal up to ASCII case folding. -/
def eq_ignore_ascii_case (a b : Str) : Bool :=
  a.map toAsciiLowercase == b.map toAsciiLowercase

/-- `should_rename` from `src/action.rs`, with `fs::metadata(to).is_ok()`
abstracted into the predicate `metadataOk`. -/
def should_rename (metadataOk : Str → Bool) (src dst : Str) : Bool :=
  eq_ignore_ascii_case src dst || !metadataOk dst

/-- Abstract filesystem interface backing `Action::apply`: a state type
`S` with the four operations the Rust code invokes; each mutating
operation returns the new state and whether the call succeeded. -/
structure FsOps (S : Type) where
  metadataOk : S → Str → Bool
  rename : S → Str → Str → S × Bool
  removeFile : S → Str → S × Bool
  removeDirAll : S → Str → S × Bool

/-- Observable outcome of one `Action::apply` call: the filesystem state
afterwards, whether the returned `io::Result` is `Ok`, and whether the
skip notice was printed. -/
structure ApplyResult (S : Type) where
  state : S
  ok : Bool
  noticePrinted : Bool
deriving DecidableEq

/-- `Action::apply` from `src/action.rs`: delete removes the file or the
directory tree; rename consults `should_rename` and either performs the
rename or skips it, printing a notice and returning success. -/
def Action.apply {S : Type} (ops : FsOps S) (s : S) (a : Action) : ApplyResult S :=
  match a.act with
  | ActionType.Delete =>
    match a.item.item_type with
    | FsItemType.File =>
      let r := ops.removeFile s a.item.name
      ⟨r.1, r.2, false⟩
    | FsItemType.Directory =>
      let r := ops.removeDirAll s a.item.name
      ⟨r.1, r.2, false⟩
  | ActionType.Rename path =>
    if should_rename (ops.metadataOk s) a.item.name path then
      let r := ops.rename s a.item.name path
      ⟨r.1, r.2, false⟩
    else
      ⟨s, true, true⟩

/-- A name that survives the line format unchanged: it contains no
newline, is already trimmed, is nonempty and does not start with the
delete marker.  Names produced by directory traversal can violate this,
which is what breaks the unconditional round-trip property. -/
def wellFormedName (n : Str) : Prop :=
  '\n' ∉ n ∧ trim n = n ∧ n ≠ [] ∧ startsWithHash n = false

instance (n : Str) : Decidable (wellFormedName n) := by
  unfold wellFormedName
  infer_instance

/-- `InsertBlankLines l l'` says the line-result list `l'` arises from `l`
by inserting any number of successfully read lines that are blank after
trimming, at arbitrary positions. -/
inductive InsertBlankLines :
    List (Except IOError Str) → List (Except IOError Str) → Prop where
  | nil : InsertBlankLines [] []
  | keep (x : Except IOError Str) (l l' : List (Except IOError Str)) :
      InsertBlankLines l l' → InsertBlankLines (x :: l) (x :: l')
  | blank (b : Str) (l l' : List (Except IOError Str)) :
      (trim b).isEmpty = true → InsertBlankLines l l' →
      InsertBlankLines l (Except.ok b :: l')

/-! ### Basic facts about `dropWhile` and trimming -/

theorem length_dropWhile_le (p : Char → Bool) (l : Str) :
    (l.dropWhile p).length ≤ l.length := by
  induction l with
  | nil => simp
  | cons c cs ih =>
    by_cases h : p c
    · simp only [List.dropWhile_cons, if_pos h, List.length_cons]
      omega
    · simp [List.dropWhile_cons, h]

theorem dropWhile_eq_self_of_length (p : Char → Bool) (l : Str)
    (h : (l.dropWhile p).length = l.length) : l.dropWhile p = l := by
  cases l with
  | nil => simp
  | cons c cs =>
    by_cases hp : p c
    · exfalso
      have := length_dropWhile_le p cs
      simp [List.dropWhile_cons, hp] at h
      omega
    · simp [List.dropWhile_cons, hp]

theorem dropWhile_head_false (p : Char → Bool) (l : Str) (c : Char) (cs : Str)
    (h : l.dropWhile p = c :: cs) : p c = false := by
  induction l with
  | nil => simp at h
  | cons x xs ih =>
    by_cases hp : p x
    · exact ih (by simpa [List.dropWhile_cons, hp] using h)
    · rw [List.dropWhile_cons, if_neg hp] at h
      cases h
      simpa using hp

theorem dropWhile_dropWhile (p : Char → Bool) (l : Str) :
    (l.dropWhile p).dropWhile p = l.dropWhile p := by
  cases h : l.dropWhile p with
  | nil => simp
  | cons c cs =>
    have hc := dropWhile_head_false p l c cs h
    simp [List.dropWhile_cons, hc]

theorem dropWhile_append_singleton (p : Char → Bool) (l : Str) (c : Char)
    (h : p c = false) : (l ++ [c]).dropWhile p = l.dropWhile p ++ [c] := by
  induction l with
  | nil => simp [List.dropWhile_cons, h]
  | cons x xs ih =>
    by_cases hp : p x <;> simp [List.dropWhile_cons, hp, ih]

theorem trimEnd_cons (c : Char) (s : Str) (h : rustIsWhitespace c = false) :
    trimEnd (c :: s) = c :: trimEnd s := by
  simp [trimEnd, dropWhile_append_singleton _ _ _ h, List.reverse_append]

theorem trimEnd_trimEnd (s : Str) : trimEnd (trimEnd s) = trimEnd s := by
  simp [trimEnd, dropWhile_dropWhile]

theorem trimStart_cons_of_not_ws (c : Char) (s : Str)
    (h : rustIsWhitespace c = false) : trimStart (c :: s) = c :: s := by
  simp [trimStart, List.dropWhile_cons, h]

theorem trim_trim (s : Str) : trim (trim s) = trim s := by
  unfold trim
  cases ht : trimStart s with
  | nil => simp [trimEnd, trimStart]
  | cons c cs =>
    have hc : rustIsWhitespace c = false := dropWhile_head_false _ s c cs ht
    rw [trimEnd_cons c cs hc, trimStart_cons_of_not_ws c (trimEnd cs) hc,
      trimEnd_cons c (trimEnd cs) hc, trimEnd_trimEnd]

theorem length_trimEnd_le (s : Str) : (trimEnd s).length ≤ s.length := by
  simpa [trimEnd] using length_dropWhile_le rustIsWhitespace s.reverse

theorem trimStart_eq_of_trim_eq (s : Str) (h : trim s = s) : trimStart s = s := by
  have h1 : (trimStart s).length ≤ s.length := length_dropWhile_le _ s
  have h2 : (trim s).length ≤ (trimStart s).length := length_trimEnd_le _
  rw [h] at h2
  have h3 : (s.dropWhile rustIsWhitespace).length = s.length := by
    simp only [trimStart] at h1 h2
    omega
  exact dropWhile_eq_self_of_length _ s h3

theorem trimEnd_eq_of_trim_eq (s : Str) (h : trim s = s) : trimEnd s = s := by
  have hs := trimStart_eq_of_trim_eq s h
  unfold trim at h
  rwa [hs] at h

theorem getLast_not_ws_of_trim_eq (s : Str) (c : Char) (h : trim s = s)
    (hc : s.getLast? = some c) : rustIsWhitespace c = false := by
  have he : trimEnd s = s := trimEnd_eq_of_trim_eq s h
  have hd : s.reverse.dropWhile rustIsWhitespace = s.reverse := by
    have := congrArg List.reverse he
    simpa [trimEnd] using this
  rw [← List.head?_reverse] at hc
  cases hr : s.reverse with
  | nil => rw [hr] at hc; simp at hc
  | cons x xs =>
    rw [hr] at hc hd
    simp only [List.head?_cons, Option.some.injEq] at hc
    rw [← hc]
    by_cases hp : rustIsWhitespace x
    · exfalso
      rw [List.dropWhile_cons, if_pos (by simpa using hp)] at hd
      have := length_dropWhile_le rustIsWhitespace xs
      have := congrArg List.length hd
      simp at this
      omega
    · simpa using hp

theorem stripCR_eq_self (s : Str) (h : trim s = s) : stripCR s = s := by
  unfold stripCR
  by_cases hl : s.getLast? = some '\r'
  · exact absurd (getLast_not_ws_of_trim_eq s '\r' h hl) (by simp [rustIsWhitespace])
  · simp [hl]

theorem trim_eq_nil_iff_of_trim_eq (s : Str) (h : trim s = s) :
    ((trim s).isEmpty = false ↔ s ≠ []) := by
  rw [h]
  cases s <;> simp

/-! ### Facts about `splitLines` -/

theorem splitLinesAux_no_newline (n : Str) (acc : Str) (h : '\n' ∉ n) :
    splitLinesAux acc n = if acc.reverse ++ n = [] then [] else [acc.reverse ++ n] := by
  induction n generalizing acc with
  | nil =>
    simp only [splitLinesAux, List.append_nil]
    by_cases ha : acc = []
    · simp [ha]
    · simp [ha, List.reverse_eq_nil_iff]
  | cons c cs ih =>
    have hc : c ≠ '\n' := fun hcn => h (hcn ▸ List.mem_cons_self c cs)
    have hcs : '\n' ∉ cs := fun hm => h (List.mem_cons_of_mem c hm)
    rw [splitLinesAux, if_neg hc, ih (c :: acc) hcs]
    simp

theorem splitLines_no_newline (n : Str) (h : '\n' ∉ n) (hne : n ≠ []) :
    splitLines n = [n] := by
  rw [splitLines, splitLinesAux_no_newline n [] h]
  simp [hne]

theorem splitLinesAux_newline (n : Str) (acc rest : Str) (h : '\n' ∉ n) :
    splitLinesAux acc (n ++ '\n' :: rest) =
      stripCR (acc.reverse ++ n) :: splitLinesAux [] rest := by
  induction n generalizing acc with
  | nil => simp [splitLinesAux]
  | cons c cs ih =>
    have hc : c ≠ '\n' := fun hcn => h (hcn ▸ List.mem_cons_self c cs)
    have hcs : '\n' ∉ cs := fun hm => h (List.mem_cons_of_mem c hm)
    rw [List.cons_append, splitLinesAux, if_neg hc, ih (c :: acc) hcs]
    simp

theorem splitLines_newline (n rest : Str) (h : '\n' ∉ n) :
    splitLines (n ++ '\n' :: rest) = stripCR n :: splitLines rest := by
  rw [splitLines, splitLinesAux_newline n [] rest h]
  simp [splitLines]

/-! ### Facts about `filterLines` -/

theorem filterLines_nil : filterLines [] = [] := rfl

theorem filterLines_cons_error (e : IOError) (l : List (Except IOError Str)) :
    filterLines (Except.error e :: l) = filterLines l := by
  simp [filterLines, List.filterMap_cons, Except.toOption]

theorem filterLines_cons_ok (s : Str) (l : List (Except IOError Str)) :
    filterLines (Except.ok s :: l) =
      if (trim s).isEmpty then filterLines l else s :: filterLines l := by
  by_cases h : (trim s).isEmpty <;>
    simp [filterLines, List.filterMap_cons, Except.toOption, List.filter_cons, h]

theorem filterLines_append (l₁ l₂ : List (Except IOError Str)) :
    filterLines (l₁ ++ l₂) = filterLines l₁ ++ filterLines l₂ := by
  simp [filterLines, List.filterMap_append, List.filter_append]

theorem filterLines_map_ok (l : List Str) :
    filterLines (l.map Except.ok) = l.filter fun s => !(trim s).isEmpty := by
  simp only [filterLines, List.filterMap_map]
  congr 1
  exact List.filterMap_some l

/-! ### Facts about `create_action` and `reconcile` -/

theorem create_action_hash (f : Str) (item : FsItem)
    (h : startsWithHash (trim f) = true) :
    create_action f item = some ⟨ActionType.Delete, item⟩ := by
  simp [create_action, h]

theorem create_action_rename (f : Str) (item : FsItem)
    (h : startsWithHash (trim f) = false) (hne : trim f ≠ item.name) :
    create_action f item = some ⟨ActionType.Rename (trim f), item⟩ := by
  simp [create_action, h, hne]

theorem create_action_none (f : Str) (item : FsItem)
    (h : startsWithHash (trim f) = false) (heq : trim f = item.name) :
    create_action f item = none := by
  have h' : startsWithHash item.name = false := heq ▸ h
  simp [create_action, h, heq, h']

theorem create_action_some_spec (f : Str) (item : FsItem) (a : Action)
    (h : create_action f item = some a) :
    a.item = item ∧
      ∀ t, a.act = ActionType.Rename t →
        trim t = t ∧ t ≠ item.name ∧ startsWithHash t = false := by
  by_cases hd : startsWithHash (trim f) = true
  · rw [create_action_hash f item hd] at h
    cases h
    exact ⟨rfl, fun t ht => by cases ht⟩
  · have hd' : startsWithHash (trim f) = false := by
      cases hb : startsWithHash (trim f)
      · rfl
      · exact absurd hb hd
    by_cases he : trim f = item.name
    · rw [create_action_none f item hd' he] at h
      cases h
    · rw [create_action_rename f item hd' he] at h
      cases h
      refine ⟨rfl, fun t ht => ?_⟩
      cases ht
      exact ⟨trim_trim f, he, hd'⟩

theorem reconcile_too_many (ls : List Str) (fs : List FsItem)
    (h : fs.length < ls.length) :
    reconcile ls fs = Except.error (ReadFileError.Parse tooManyMsg) := by
  induction fs generalizing ls with
  | nil =>
    cases ls with
    | nil => simp at h
    | cons l ls' => rfl
  | cons f fs' ih =>
    cases ls with
    | nil => simp at h
    | cons l ls' =>
      have : fs'.length < ls'.length := by simpa using h
      rw [reconcile, ih ls' this]

theorem reconcile_not_enough (ls : List Str) (fs : List FsItem)
    (h : ls.length < fs.length) :
    reconcile ls fs = Except.error (ReadFileError.Parse notEnoughMsg) := by
  induction ls generalizing fs with
  | nil =>
    cases fs with
    | nil => simp at h
    | cons f fs' => rfl
  | cons l ls' ih =>
    cases fs with
    | nil => simp at h
    | cons f fs' =>
      have : ls'.length < fs'.length := by simpa using h
      rw [reconcile, ih fs' this]

theorem reconcile_parse_or_ok (ls : List Str) (fs : List FsItem) :
    (∃ as, reconcile ls fs = Except.ok as) ∨
      (∃ msg, reconcile ls fs = Except.error (ReadFileError.Parse msg)) := by
  induction ls generalizing fs with
  | nil =>
    cases fs with
    | nil => exact Or.inl ⟨[], rfl⟩
    | cons f fs' => exact Or.inr ⟨notEnoughMsg, rfl⟩
  | cons l ls' ih =>
    cases fs with
    | nil => exact Or.inr ⟨tooManyMsg, rfl⟩
    | cons f fs' =>
      rcases ih fs' with ⟨as, has⟩ | ⟨msg, hmsg⟩
      · rw [reconcile, has]
        cases create_action l f with
        | none => exact Or.inl ⟨as, rfl⟩
        | some a => exact Or.inl ⟨a :: as, rfl⟩
      · rw [reconcile, hmsg]
        exact Or.inr ⟨msg, rfl⟩

theorem reconcile_map_name (fs : List FsItem)
    (h : ∀ f ∈ fs, trim f.name = f.name ∧ startsWithHash f.name = false) :
    reconcile (fs.map FsItem.name) fs = Except.ok [] := by
  induction fs with
  | nil => rfl
  | cons f fs' ih =>
    have hf := h f (List.mem_cons_self f fs')
    have hrest : ∀ g ∈ fs', trim g.name = g.name ∧ startsWithHash g.name = false :=
      fun g hg => h g (List.mem_cons_of_mem f hg)
    rw [List.map_cons, reconcile, ih hrest,
      create_action_none f.name f (by rw [hf.1]; exact hf.2) hf.1]

theorem reconcile_ok_invariants (ls : List Str) (fs : List FsItem)
    (as : List Action) (h : reconcile ls fs = Except.ok as) :
    (as.map Action.item).Sublist fs ∧
      ∀ a ∈ as, ∀ t, a.act = ActionType.Rename t →
        trim t = t ∧ t ≠ a.item.name ∧ startsWithHash t = false := by
  induction ls generalizing fs as with
  | nil =>
    cases fs with
    | nil =>
      rw [reconcile] at h
      cases h
      simp
    | cons f fs' => cases h
  | cons l ls' ih =>
    cases fs with
    | nil => cases h
    | cons f fs' =>
      rw [reconcile] at h
      cases hrec : reconcile ls' fs' with
      | error e => rw [hrec] at h; cases h
      | ok rest =>
        rw [hrec] at h
        obtain ⟨hsub, hprops⟩ := ih fs' rest hrec
        cases hca : create_action l f with
        | none =>
          rw [hca] at h
          cases h
          exact ⟨hsub.cons f, hprops⟩
        | some a =>
          rw [hca] at h
          cases h
          obtain ⟨hitem, hact⟩ := create_action_some_spec l f a hca
          constructor
          · rw [List.map_cons, hitem]
            exact hsub.cons₂ f
          · intro b hb t ht
            rcases List.mem_cons.mp hb with rfl | hb'
            · have := hact t ht
              rw [hitem]
              exact this
            · exact hprops b hb' t ht

theorem splitLines_write_file_names (fs : List FsItem)
    (h : ∀ f ∈ fs, '\n' ∉ f.name ∧ trim f.name = f.name ∧ f.name ≠ []) :
    splitLines (write_file_names fs) = fs.map FsItem.name := by
  induction fs with
  | nil => rfl
  | cons x xs ih =>
    cases xs with
    | nil =>
      have hx := h x (List.mem_cons_self x [])
      simp only [write_file_names, List.map_cons, List.map_nil]
      exact splitLines_no_newline x.name hx.1 hx.2.2
    | cons y ys =>
      have hx := h x (List.mem_cons_self x (y :: ys))
      have hrest : ∀ f ∈ y :: ys, '\n' ∉ f.name ∧ trim f.name = f.name ∧ f.name ≠ [] :=
        fun f hf => h f (List.mem_cons_of_mem x hf)
      calc splitLines (write_file_names (x :: y :: ys))
          = splitLines (x.name ++ '\n' :: write_file_names (y :: ys)) := rfl
        _ = stripCR x.name :: splitLines (write_file_names (y :: ys)) :=
            splitLines_newline _ _ hx.1
        _ = (x :: y :: ys).map FsItem.name := by
            rw [stripCR_eq_self x.name hx.2.1, ih hrest]
            simp

theorem filterLines_of_insertBlankLines (l l' : List (Except IOError Str))
    (h : InsertBlankLines l l') : filterLines l' = filterLines l := by
  induction h with
  | nil => rfl
  | keep x l l' _ ih =>
    cases x with
    | error e => rw [filterLines_cons_error, filterLines_cons_error, ih]
    | ok s => rw [filterLines_cons_ok, filterLines_cons_ok, ih]
  | blank b l l' hb _ ih =>
    rw [filterLines_cons_ok, if_pos hb, ih]

/-! ### The claims -/

/-- C1, as stated, is false: serializing then reconciling an entry whose
name starts with the delete marker yields a `Delete` action, not the
empty action list. -/
theorem claim_C1_counterexample :
    read_text (write_file_names [⟨FsItemType.File, "#a".data⟩])
        [⟨FsItemType.File, "#a".data⟩] =
      Except.ok [⟨ActionType.Delete, ⟨FsItemType.File, "#a".data⟩⟩] ∧
    read_text (write_file_names [⟨FsItemType.File, "#a".data⟩])
        [⟨FsItemType.File, "#a".data⟩] ≠ Except.ok [] :=
  ⟨by decide, by decide⟩

/-- C1 (amended): for every entry sequence whose names contain no
newline, are already trimmed, are nonempty and do not start with the
delete marker, parsing the serialized listing yields exactly one
non-blank line per entry, each equal to that entry's name, and
reconciling it against the same sequence succeeds with an empty action
list. -/
theorem claim_C1_round_trip (fs : List FsItem)
    (h : ∀ f ∈ fs, wellFormedName f.name) :
    ((splitLines (write_file_names fs)).filter fun s => !(trim s).isEmpty) =
        fs.map FsItem.name ∧
      read_text (write_file_names fs) fs = Except.ok [] := by
  have hsplit : splitLines (write_file_names fs) = fs.map FsItem.name :=
    splitLines_write_file_names fs fun f hf =>
      ⟨(h f hf).1, (h f hf).2.1, (h f hf).2.2.1⟩
  have hfilter :
      ((fs.map FsItem.name).filter fun s => !(trim s).isEmpty) = fs.map FsItem.name := by
    refine List.filter_eq_self.mpr fun s hs => ?_
    obtain ⟨f, hf, rfl⟩ := List.mem_map.mp hs
    have hw := h f hf
    have := (trim_eq_nil_iff_of_trim_eq f.name hw.2.1).mpr hw.2.2.1
    simp [this]
  refine ⟨by rw [hsplit, hfilter], ?_⟩
  unfold read_text read_file_names
  rw [hsplit, filterLines_map_ok, hfilter]
  exact reconcile_map_name fs fun f hf => ⟨(h f hf).2.1, (h f hf).2.2.2⟩

theorem claim_C1_round_trip_witness :
    (∀ f ∈ [(⟨FsItemType.File, "a.txt".data⟩ : FsItem),
        ⟨FsItemType.Directory, "docs".data⟩], wellFormedName f.name) ∧
    ((splitLines (write_file_names [(⟨FsItemType.File, "a.txt".data⟩ : FsItem),
          ⟨FsItemType.Directory, "docs".data⟩])).filter fun s => !(trim s).isEmpty) =
        [(⟨FsItemType.File, "a.txt".data⟩ : FsItem),
          ⟨FsItemType.Directory, "docs".data⟩].map FsItem.name ∧
      read_text (write_file_names [(⟨FsItemType.File, "a.txt".data⟩ : FsItem),
          ⟨FsItemType.Directory, "docs".data⟩])
        [(⟨FsItemType.File, "a.txt".data⟩ : FsItem),
          ⟨FsItemType.Directory, "docs".data⟩] = Except.ok [] :=
  ⟨by decide, claim_C1_round_trip _ (by decide)⟩

/-- C2: when the count of non-blank edited lines differs from the entry
count, reconciliation fails with the too-many message if lines exceed
entries and the not-enough message otherwise, returning no actions. -/
theorem claim_C2_count_mismatch (lines : List (Except IOError Str))
    (files : List FsItem) (h : (filterLines lines).length ≠ files.length) :
    read_file_names lines files =
      Except.error (ReadFileError.Parse
        (if files.length < (filterLines lines).length then tooManyMsg
         else notEnoughMsg)) := by
  unfold read_file_names
  rcases Nat.lt_trichotomy files.length (filterLines lines).length with hlt | heq | hgt
  · rw [if_pos hlt]
    exact reconcile_too_many _ _ hlt
  · exact absurd heq.symm h
  · rw [if_neg (by omega)]
    exact reconcile_not_enough _ _ hgt

theorem claim_C2_count_mismatch_witness :
    (filterLines [Except.ok "x".data, Except.ok "y".data, Except.ok "z".data]).length ≠
        [(⟨FsItemType.File, "x".data⟩ : FsItem), ⟨FsItemType.File, "y".data⟩].length ∧
    read_file_names [Except.ok "x".data, Except.ok "y".data, Except.ok "z".data]
        [(⟨FsItemType.File, "x".data⟩ : FsItem), ⟨FsItemType.File, "y".data⟩] =
      Except.error (ReadFileError.Parse
        (if [(⟨FsItemType.File, "x".data⟩ : FsItem), ⟨FsItemType.File, "y".data⟩].length <
            (filterLines [Except.ok "x".data, Except.ok "y".data, Except.ok "z".data]).length
         then tooManyMsg else notEnoughMsg)) :=
  ⟨by decide, claim_C2_count_mismatch _ _ (by decide)⟩

/-- C3: a line whose trimmed form begins with the delete marker always
produces a `Delete` action for its positional entry, whatever the rest of
the line holds, the delete check preceding the equality check. -/
theorem claim_C3_delete_marker (f : Str) (item : FsItem)
    (h : startsWithHash (trim f) = true) :
    create_action f item = some ⟨ActionType.Delete, item⟩ :=
  create_action_hash f item h

theorem claim_C3_delete_marker_witness :
    startsWithHash (trim "#b.txt".data) = true ∧
    create_action "#b.txt".data ⟨FsItemType.File, "#b.txt".data⟩ =
      some ⟨ActionType.Delete, ⟨FsItemType.File, "#b.txt".data⟩⟩ :=
  ⟨by decide, claim_C3_delete_marker _ _ (by decide)⟩

/-- C4: a line whose trimmed form neither starts with the delete marker
nor equals the entry's name produces a `Rename` whose target is exactly
the trimmed line. -/
theorem claim_C4_rename (f : Str) (item : FsItem)
    (h1 : startsWithHash (trim f) = false) (h2 : trim f ≠ item.name) :
    create_action f item = some ⟨ActionType.Rename (trim f), item⟩ :=
  create_action_rename f item h1 h2

theorem claim_C4_rename_witness :
    startsWithHash (trim " c2.txt \t".data) = false ∧
    trim " c2.txt \t".data ≠ "c.txt".data ∧
    create_action " c2.txt \t".data ⟨FsItemType.File, "c.txt".data⟩ =
      some ⟨ActionType.Rename (trim " c2.txt \t".data), ⟨FsItemType.File, "c.txt".data⟩⟩ :=
  ⟨by decide, by decide, claim_C4_rename _ _ (by decide) (by decide)⟩

/-- C5: a line whose trimmed form equals the entry's name verbatim and
does not start with the delete marker produces no action. -/
theorem claim_C5_noop (f : Str) (item : FsItem)
    (h1 : trim f = item.name) (h2 : startsWithHash (trim f) = false) :
    create_action f item = none :=
  create_action_none f item h2 h1

theorem claim_C5_noop_witness :
    trim "  a.txt ".data = "a.txt".data ∧
    startsWithHash (trim "  a.txt ".data) = false ∧
    create_action "  a.txt ".data ⟨FsItemType.File, "a.txt".data⟩ = none :=
  ⟨by decide, by decide, claim_C5_noop _ _ (by decide) (by decide)⟩

/-- C6: applying a `Rename` action performs the filesystem rename
exactly when the target case-insensitively equals the source or no entry
exists at the target (the metadata lookup fails); otherwise the action is
skipped, the notice is printed, the result is success and the filesystem
state is untouched. -/
theorem claim_C6_rename_guard {S : Type} (ops : FsOps S) (s : S) (a : Action)
    (path : Str) (h : a.act = ActionType.Rename path) :
    ((Action.apply ops s a).noticePrinted = false ↔
        (eq_ignore_ascii_case a.item.name path = true ∨
          ops.metadataOk s path = false)) ∧
      (should_rename (ops.metadataOk s) a.item.name path = true →
        Action.apply ops s a =
          ⟨(ops.rename s a.item.name path).1,
            (ops.rename s a.item.name path).2, false⟩) ∧
      (eq_ignore_ascii_case a.item.name path = false →
        ops.metadataOk s path = true →
        Action.apply ops s a = ⟨s, true, true⟩) := by
  obtain ⟨act, item⟩ := a
  change act = ActionType.Rename path at h
  subst h
  have hiff : should_rename (ops.metadataOk s) item.name path = true ↔
      (eq_ignore_ascii_case item.name path = true ∨
        ops.metadataOk s path = false) := by
    simp [should_rename, Bool.or_eq_true, Bool.not_eq_true']
  by_cases hsr : should_rename (ops.metadataOk s) item.name path = true
  · refine ⟨?_, ?_, ?_⟩
    · simp [Action.apply, hsr, hiff.mp hsr]
    · intro _
      simp [Action.apply, hsr]
    · intro h1 h2
      exact absurd (hiff.mp hsr) (by simp [h1, h2])
  · have hsr' : should_rename (ops.metadataOk s) item.name path = false := by
      cases hb : should_rename (ops.metadataOk s) item.name path
      · rfl
      · exact absurd hb hsr
    refine ⟨?_, ?_, ?_⟩
    · constructor
      · intro hnp
        exfalso
        simp [Action.apply, hsr'] at hnp
      · intro hor
        exact absurd (hiff.mpr hor) hsr
    · intro hh
      exact absurd hh hsr
    · intro _ _
      simp [Action.apply, hsr']

theorem claim_C6_rename_guard_witness :
    (Action.mk (ActionType.Rename "b.txt".data)
        ⟨FsItemType.File, "a.txt".data⟩).act = ActionType.Rename "b.txt".data ∧
    Action.apply (S := Nat)
        ⟨fun _ _ => true, fun s _ _ => (s + 1, true),
          fun s _ => (s, true), fun s _ => (s, true)⟩ 0
        ⟨ActionType.Rename "b.txt".data, ⟨FsItemType.File, "a.txt".data⟩⟩ =
      ⟨0, true, true⟩ :=
  ⟨rfl, (claim_C6_rename_guard _ 0 _ _ rfl).2.2 (by decide) rfl⟩

/-- C7: inserting blank lines anywhere in the line-result list leaves the
reconciliation result unchanged, because blank lines are discarded before
positional pairing. -/
theorem claim_C7_blank_lines (l l' : List (Except IOError Str))
    (files : List FsItem) (h : InsertBlankLines l l') :
    read_file_names l' files = read_file_names l files := by
  unfold read_file_names
  rw [filterLines_of_insertBlankLines l l' h]

theorem claim_C7_blank_lines_witness :
    InsertBlankLines [Except.ok "a.txt".data]
        [Except.ok "  ".data, Except.ok "a.txt".data] ∧
    read_file_names [Except.ok "  ".data, Except.ok "a.txt".data]
        [⟨FsItemType.File, "a.txt".data⟩] =
      read_file_names [Except.ok "a.txt".data] [⟨FsItemType.File, "a.txt".data⟩] :=
  ⟨InsertBlankLines.blank _ _ _ (by decide)
      (InsertBlankLines.keep _ _ _ InsertBlankLines.nil),
    claim_C7_blank_lines _ _ _
      (InsertBlankLines.blank _ _ _ (by decide)
        (InsertBlankLines.keep _ _ _ InsertBlankLines.nil))⟩

/-- C8: on entries `a.txt`, `b.txt`, `c.txt` and edited text
`a.txt\n#b.txt\nc2.txt`, reconciliation succeeds with exactly a `Delete`
of `b.txt` followed by a `Rename` of `c.txt` to `c2.txt`. -/
theorem claim_C8_example :
    read_text "a.txt\n#b.txt\nc2.txt".data
        [⟨FsItemType.File, "a.txt".data⟩, ⟨FsItemType.File, "b.txt".data⟩,
          ⟨FsItemType.File, "c.txt".data⟩] =
      Except.ok
        [⟨ActionType.Delete, ⟨FsItemType.File, "b.txt".data⟩⟩,
          ⟨ActionType.Rename "c2.txt".data, ⟨FsItemType.File, "c.txt".data⟩⟩] := by
  decide

/-- C9: every successful reconciliation returns actions whose entries
form a subsequence of the entry list in order, and every `Rename` target
is trimmed, differs from its entry's name and does not start with the
delete marker. -/
theorem claim_C9_invariants (lines : List (Except IOError Str))
    (files : List FsItem) (as : List Action)
    (h : read_file_names lines files = Except.ok as) :
    (as.map Action.item).Sublist files ∧
      ∀ a ∈ as, ∀ t, a.act = ActionType.Rename t →
        trim t = t ∧ t ≠ a.item.name ∧ startsWithHash t = false :=
  reconcile_ok_invariants (filterLines lines) files as h

theorem claim_C9_invariants_witness :
    read_file_names [Except.ok " a2.txt ".data, Except.ok "#b.txt".data]
        [(⟨FsItemType.File, "a.txt".data⟩ : FsItem), ⟨FsItemType.File, "b.txt".data⟩] =
      Except.ok
        [⟨ActionType.Rename "a2.txt".data, ⟨FsItemType.File, "a.txt".data⟩⟩,
          ⟨ActionType.Delete, ⟨FsItemType.File, "b.txt".data⟩⟩] ∧
    (([(⟨ActionType.Rename "a2.txt".data, (⟨FsItemType.File, "a.txt".data⟩ : FsItem)⟩ : Action),
        ⟨ActionType.Delete, ⟨FsItemType.File, "b.txt".data⟩⟩].map Action.item).Sublist
      [(⟨FsItemType.File, "a.txt".data⟩ : FsItem), ⟨FsItemType.File, "b.txt".data⟩] ∧
      ∀ a ∈ [(⟨ActionType.Rename "a2.txt".data, (⟨FsItemType.File, "a.txt".data⟩ : FsItem)⟩ : Action),
          ⟨ActionType.Delete, ⟨FsItemType.File, "b.txt".data⟩⟩],
        ∀ t, a.act = ActionType.Rename t →
          trim t = t ∧ t ≠ a.item.name ∧ startsWithHash t = false) :=
  ⟨by decide,
    claim_C9_invariants [Except.ok " a2.txt ".data, Except.ok "#b.txt".data]
      [⟨FsItemType.File, "a.txt".data⟩, ⟨FsItemType.File, "b.txt".data⟩]
      [⟨ActionType.Rename "a2.txt".data, ⟨FsItemType.File, "a.txt".data⟩⟩,
        ⟨ActionType.Delete, ⟨FsItemType.File, "b.txt".data⟩⟩] (by decide)⟩

/-- C10: a failed line read is discarded exactly like a blank line, never
consuming a position, and `read_file_names` never returns the `Io` error
variant: its result is a success or a `Parse` error. -/
theorem claim_C10_failed_reads :
    (∀ (l₁ l₂ : List (Except IOError Str)) (e : IOError) (files : List FsItem),
        read_file_names (l₁ ++ Except.error e :: l₂) files =
          read_file_names (l₁ ++ l₂) files) ∧
      (∀ (lines : List (Except IOError Str)) (files : List FsItem),
        (∃ as, read_file_names lines files = Except.ok as) ∨
          (∃ msg, read_file_names lines files =
            Except.error (ReadFileError.Parse msg))) := by
  constructor
  · intro l₁ l₂ e files
    unfold read_file_names
    rw [filterLines_append, filterLines_cons_error, ← filterLines_append]
  · intro lines files
    exact reconcile_parse_or_ok (filterLines lines) files

end Renamer
